import Mathlib

/-!
Verification of the ContextScrape crawl engine against its specification.

The development shallowly embeds the engine's core (the second revision of
`app/api/scrape/route.ts`, the markdown cleaner of `utils/markdown-cleaner.ts`,
and the model-based cleaner `cleanupMarkdownWithGemini`) in Lean.

Modelling conventions:
* JavaScript strings are Lean `String`s; the character-level operations the
  code relies on (`startsWith`, `endsWith`, `trim`, `slice(0,-1)`, regex
  replacement) are implemented on `List Char` and wrapped.
* A parsed WHATWG URL (the result of `new URL(...)`) is modelled by its
  components `origin`, `pathname`, `search`, `hash`; `href` is their
  concatenation, which is the serialization for credential-free URLs.
* External capabilities (the `franc` language detector, the SHA-256 digest,
  the Gemini model call) are parameters of the functions that use them.
* Concurrency follows JavaScript's run-to-completion semantics: the
  synchronous blocks of the code are atomic steps, and the schedule
  (completion order, abort timing) is a parameter or a small-step relation.
-/

/-! ## Character-level string primitives (JS semantics) -/

/-- Whitespace as recognized by JavaScript `trim()` and `\s`
(restricted to the ASCII whitespace characters that can occur here). -/
def isJsWS (c : Char) : Bool :=
  c == ' ' || c == '\t' || c == '\n' || c == '\r' || c == '\x0b' || c == '\x0c'

/-- Space-or-tab, the class `[ \t]` of the per-line trimming rule. -/
def isSpaceTab (c : Char) : Bool := c == ' ' || c == '\t'

/-- Drop a trailing run of characters satisfying `p` (right-hand half of
JS `trim()`), implemented structurally from the front. -/
def dropTrail (p : Char → Bool) : List Char → List Char
  | [] => []
  | c :: rest =>
    match dropTrail p rest with
    | [] => if p c then [] else [c]
    | r => c :: r

/-- JS `String.prototype.trim` on a character list. -/
def jsTrimList (l : List Char) : List Char := dropTrail isJsWS (l.dropWhile isJsWS)

/-- JS `String.prototype.trim`. -/
def jsTrim (s : String) : String := ⟨jsTrimList s.data⟩

/-- JS `s.startsWith(p)`. -/
def jsStartsWith (s p : String) : Bool := p.data.isPrefixOf s.data

/-- JS `s.endsWith(p)`. -/
def jsEndsWith (s p : String) : Bool := p.data.isSuffixOf s.data

/-- JS `s.slice(0, -1)`. -/
def jsDropLast (s : String) : String := ⟨s.data.dropLast⟩

/-! ## URL model

`Url` models the outcome of a successful `new URL(...)`: the components the
engine reads.  `href` is the serialization; for URLs without embedded
credentials it is `origin + pathname + search + hash`. -/

structure Url where
  origin : String
  pathname : String
  search : String
  hash : String
deriving DecidableEq

/-- The `href` serialization of a parsed (credential-free) URL. -/
def Url.href (u : Url) : String := u.origin ++ u.pathname ++ u.search ++ u.hash

/-- From `route.ts` 243–246: the seed's pathname with a trailing slash stripped
unless the whole path is `"/"` (`length > 1 && endsWith("/")`). -/
def normalizedPathname (u : Url) : String :=
  if 1 < u.pathname.length ∧ jsEndsWith u.pathname "/" = true then
    jsDropLast u.pathname
  else u.pathname

/-- From `route.ts` 247–248: the string whose hash keys the cache
(`origin + normalizedPathname + search`). -/
def canonicalUrlForCache (u : Url) : String :=
  u.origin ++ normalizedPathname u ++ u.search

/-- From `route.ts` 249: the scope string bounding the crawl. -/
def scopeUrl (u : Url) : String := u.origin ++ normalizedPathname u

/-- The canonical string form of a link used for dedup:
`absoluteUrl.origin + absoluteUrl.pathname` (`route.ts` 335–336). -/
def canonStr (u : Url) : String := u.origin ++ u.pathname

/-- Canonicalization at the URL level: query and fragment stripped. -/
def canonUrl (u : Url) : Url :=
  { origin := u.origin, pathname := u.pathname, search := "", hash := "" }

/-- From `route.ts` 188–190: `getCacheKey`, parameterized by the hex SHA-256
digest (an external capability). -/
def getCacheKey (sha256hex : String → String) (url : String) : String :=
  sha256hex url ++ ".md"

/-! ## Discovery (the Frontier)

`route.ts` 295–343.  The discovered set `visited` starts as `{startUrl.href}`
and each anchor examined during the crawl runs the synchronous
check-then-insert of lines 333–343.  Which anchors are examined, and in which
order, depends on network nondeterminism, so the model folds the insertion
step over an arbitrary sequence of successfully parsed link URLs. -/

structure Frontier where
  visited : List String
  queue : List String
deriving DecidableEq

/-- One anchor examined during discovery (`route.ts` 333–343): canonicalize,
then insert-if-in-scope-and-absent into `visited` and the queue. -/
def addLink (scope : String) (f : Frontier) (link : Url) : Frontier :=
  if jsStartsWith (canonStr link) scope && !(f.visited.contains (canonStr link)) then
    { visited := f.visited ++ [canonStr link], queue := f.queue ++ [canonStr link] }
  else f

/-- The frontier at the end of discovery, for a given sequence of examined
links: the seed's `href` is pre-inserted (`route.ts` 295–296). -/
def discoverAll (seed : Url) (links : List Url) : Frontier :=
  links.foldl (addLink (scopeUrl seed)) { visited := [Url.href seed], queue := [Url.href seed] }

/-! ### Discovery lemmas -/

theorem data_append (a b : String) : (a ++ b).data = a.data ++ b.data := rfl

theorem normalizedPathname_data_isPrefix (u : Url) :
    (normalizedPathname u).data <+: u.pathname.data := by
  unfold normalizedPathname
  split
  · exact List.dropLast_prefix u.pathname.data
  · exact List.prefix_rfl

theorem seed_href_startsWith_scope (u : Url) :
    jsStartsWith (Url.href u) (scopeUrl u) = true := by
  unfold jsStartsWith Url.href scopeUrl
  rw [ List.isPrefixOf_iff_prefix]
  obtain ⟨t, ht⟩ := normalizedPathname_data_isPrefix u
  refine ⟨t ++ u.search.data ++ u.hash.data, ?_⟩
  simp only [data_append, List.append_assoc]
  rw [← ht]
  simp [List.append_assoc]

theorem contains_false_not_mem {l : List String} {a : String}
    (h : l.contains a = false) : a ∉ l := by
  intro hmem
  simp [List.contains_iff_exists_mem_beq] at h
  exact h hmem

/-- The two invariants preserved by every discovery insertion: the visited
list has no duplicate strings, and every element satisfies `P` provided every
in-scope canonical link string does. -/
theorem discover_foldl_inv (scope : String) (links : List Url) (f : Frontier)
    (P : String → Prop)
    (hadd : ∀ link : Url, jsStartsWith (canonStr link) scope = true → P (canonStr link))
    (hN : f.visited.Nodup) (hP : ∀ e ∈ f.visited, P e) :
    (links.foldl (addLink scope) f).visited.Nodup ∧
      ∀ e ∈ (links.foldl (addLink scope) f).visited, P e := by
  induction links generalizing f with
  | nil => exact ⟨hN, hP⟩
  | cons l ls ih =>
    simp only [List.foldl_cons]
    apply ih
    · unfold addLink
      split
      · next h =>
        simp only [Bool.and_eq_true, Bool.not_eq_true'] at h
        simpa [List.nodup_append] using ⟨hN, contains_false_not_mem h.2⟩
      · exact hN
    · unfold addLink
      split
      · next h =>
        simp only [Bool.and_eq_true, Bool.not_eq_true'] at h
        intro e he
        rcases List.mem_append.mp he with he | he
        · exact hP e he
        · rcases List.mem_singleton.mp he with rfl
          exact hadd l h.1
      · exact hP

/-- Every discovery insertion only ever appends, and any element of the
final visited list is either an initial element or the canonical string of
one of the examined links that passed the scope check. -/
theorem discover_foldl_mem (scope : String) (links : List Url) (f : Frontier) :
    ∀ e ∈ (links.foldl (addLink scope) f).visited,
      e ∈ f.visited ∨
        ∃ u ∈ links, e = canonStr u ∧ jsStartsWith (canonStr u) scope = true := by
  induction links generalizing f with
  | nil => exact fun e he => Or.inl he
  | cons l ls ih =>
    intro e he
    simp only [List.foldl_cons] at he
    rcases ih (addLink scope f l) e he with hmem | ⟨u, hu, rfl, hsc⟩
    · unfold addLink at hmem
      split at hmem
      · next h =>
        simp only [Bool.and_eq_true] at h
        rcases List.mem_append.mp hmem with hmem | hmem
        · exact Or.inl hmem
        · rcases List.mem_singleton.mp hmem with rfl
          exact Or.inr ⟨l, List.mem_cons_self l ls, rfl, h.1⟩
      · exact Or.inl hmem
    · exact Or.inr ⟨u, List.mem_cons_of_mem l hu, rfl, hsc⟩

/-- The initial frontier elements survive every insertion. -/
theorem discover_foldl_mono (scope : String) (links : List Url) (f : Frontier) :
    ∀ e ∈ f.visited, e ∈ (links.foldl (addLink scope) f).visited := by
  induction links generalizing f with
  | nil => exact fun e he => he
  | cons l ls ih =>
    intro e he
    simp only [List.foldl_cons]
    apply ih
    unfold addLink
    split
    · exact List.mem_append.mpr (Or.inl he)
    · exact he

/-- C2: every URL ever present in the final discovered set — the seed's
`href` entry included — starts with the scope string derived from the seed
(origin plus path with a trailing slash stripped unless the path is `"/"`);
no out-of-scope URL is ever added. -/
theorem scope_confines_discovered_set (seed : Url) (links : List Url) (u : String)
    (h : u ∈ (discoverAll seed links).visited) :
    jsStartsWith u (scopeUrl seed) = true := by
  unfold discoverAll at h
  refine (discover_foldl_inv (scopeUrl seed) links _
    (fun e => jsStartsWith e (scopeUrl seed) = true)
    (fun _ hl => hl) (List.nodup_singleton _) ?_).2 u h
  intro e he
  rcases List.mem_singleton.mp he with rfl
  exact seed_href_startsWith_scope seed

/-- Witness for `scope_confines_discovered_set` at a concrete seed. -/
theorem scope_confines_discovered_set_witness :
    ("https://example.com/docs/" ∈
        (discoverAll ⟨"https://example.com", "/docs/", "", ""⟩ []).visited)
    ∧ jsStartsWith "https://example.com/docs/"
        (scopeUrl ⟨"https://example.com", "/docs/", "", ""⟩) = true :=
  ⟨by decide, scope_confines_discovered_set ⟨"https://example.com", "/docs/", "", ""⟩ [] _ (by decide)⟩

/-- C3 counterexample: the seed is stored as its full `href` (query string
included) while links are stored canonicalized, so a seed carrying a query
coexists with a link-derived entry canonicalizing to the same page: two
distinct entries of the final set with the same canonical form. -/
theorem seed_query_duplicate_canonical :
    (discoverAll ⟨"https://example.com", "/docs", "?v=1", ""⟩
        [⟨"https://example.com", "/docs", "", ""⟩]).visited
      = ["https://example.com/docs?v=1", "https://example.com/docs"]
    ∧ canonStr ⟨"https://example.com", "/docs", "?v=1", ""⟩
      = canonStr ⟨"https://example.com", "/docs", "", ""⟩
    ∧ ("https://example.com/docs?v=1" : String) ≠ "https://example.com/docs" := by
  refine ⟨by decide, by decide, by decide⟩

/-- C3 amended: the discovered set never contains two equal strings, every
entry other than the seed's `href` is the canonical string of an examined
in-scope link, the seed's `href` entry is always present, and
canonicalization is idempotent.  (The seed entry itself is stored
uncanonicalized, which is what the counterexample exploits.) -/
theorem discovered_set_dedup_canonical (seed : Url) (links : List Url) :
    (discoverAll seed links).visited.Nodup
    ∧ (∀ e ∈ (discoverAll seed links).visited,
        e = Url.href seed ∨
          ∃ u ∈ links, e = canonStr u ∧ jsStartsWith (canonStr u) (scopeUrl seed) = true)
    ∧ Url.href seed ∈ (discoverAll seed links).visited
    ∧ (∀ u : Url, canonUrl (canonUrl u) = canonUrl u) := by
  refine ⟨?_, ?_, ?_, fun u => rfl⟩
  · exact (discover_foldl_inv (scopeUrl seed) links _ (fun _ => True)
      (fun _ _ => trivial) (List.nodup_singleton _) (fun _ _ => trivial)).1
  · intro e he
    rcases discover_foldl_mem (scopeUrl seed) links _ e he with hmem | h
    · exact Or.inl (List.mem_singleton.mp hmem)
    · exact Or.inr h
  · exact discover_foldl_mono (scopeUrl seed) links _ _ (List.mem_singleton_self _)

/-- Witness for `discovered_set_dedup_canonical` at a concrete crawl. -/
theorem discovered_set_dedup_canonical_witness :
    (discoverAll ⟨"https://example.com", "/docs", "", ""⟩ []).visited.Nodup
    ∧ Url.href ⟨"https://example.com", "/docs", "", ""⟩
        ∈ (discoverAll ⟨"https://example.com", "/docs", "", ""⟩ []).visited :=
  ⟨(discovered_set_dedup_canonical ⟨"https://example.com", "/docs", "", ""⟩ []).1,
   (discovered_set_dedup_canonical ⟨"https://example.com", "/docs", "", ""⟩ []).2.2.1⟩

/-! ## Cache key (C7) -/

/-- A concrete instantiation of the digest parameter used by closed
witnesses; the engine's real digest (hex SHA-256) is collision-free on the
inputs of interest, which is all the statements rely on. -/
def hashId : String → String := fun s => s

/-- C7 counterexample: the string hashed for the cache file name is
`origin + normalizedPathname + search` — the query string is *not*
stripped — so it differs from the scope string, and two seeds differing
only in their query map to different cache files. -/
theorem cache_key_includes_query :
    canonicalUrlForCache ⟨"https://example.com", "/docs", "?a=1", ""⟩
        ≠ scopeUrl ⟨"https://example.com", "/docs", "?a=1", ""⟩
    ∧ getCacheKey hashId (canonicalUrlForCache ⟨"https://example.com", "/docs", "?a=1", ""⟩)
        ≠ getCacheKey hashId (canonicalUrlForCache ⟨"https://example.com", "/docs", "?a=2", ""⟩) := by
  exact ⟨by decide, by decide⟩

/-- C7 amended: the cache file name is the digest of
`origin + normalized path + query` plus `".md"` (the fragment — absent from
the parsed components used — is stripped, the query is kept): seeds
differing only in fragment share a cache file, while seeds differing in
query get different file names whenever the digest does not collide. -/
theorem cache_key_shape (sha256hex : String → String) (u : Url) (frag : String) :
    getCacheKey sha256hex (canonicalUrlForCache u)
        = sha256hex (u.origin ++ normalizedPathname u ++ u.search) ++ ".md"
    ∧ canonicalUrlForCache { u with hash := frag } = canonicalUrlForCache u
    ∧ (∀ u' : Url, Function.Injective sha256hex → u.origin = u'.origin →
        u.pathname = u'.pathname → u.search ≠ u'.search →
        getCacheKey sha256hex (canonicalUrlForCache u)
          ≠ getCacheKey sha256hex (canonicalUrlForCache u')) := by
  refine ⟨rfl, rfl, ?_⟩
  intro u' hinj ho hp hs hkey
  apply hs
  have hn : normalizedPathname u = normalizedPathname u' := by
    unfold normalizedPathname
    rw [hp]
  have h1 : canonicalUrlForCache u = canonicalUrlForCache u' := by
    have hd := congrArg String.data hkey
    simp only [getCacheKey, data_append] at hd
    exact hinj (String.ext (List.append_cancel_right hd))
  unfold canonicalUrlForCache at h1
  rw [ho, hn] at h1
  have hd := congrArg String.data h1
  simp only [data_append, List.append_assoc] at hd
  exact String.ext (List.append_cancel_left (List.append_cancel_left hd))

/-- Witness for `cache_key_shape`: two concrete query-differing seeds get
different cache file names. -/
theorem cache_key_shape_witness :
    getCacheKey hashId (canonicalUrlForCache ⟨"https://e.com", "/d", "?a=1", ""⟩)
        ≠ getCacheKey hashId (canonicalUrlForCache ⟨"https://e.com", "/d", "?a=2", ""⟩) :=
  (cache_key_shape hashId ⟨"https://e.com", "/d", "?a=1", ""⟩ "").2.2
    ⟨"https://e.com", "/d", "?a=2", ""⟩ (fun _ _ hq => hq) rfl rfl (by decide)

/-! ## The rule-based markdown cleaner (`utils/markdown-cleaner.ts`)

`cleanMarkdown` first applies the six regex `cleaningRules` to the whole
text, then walks the lines with a fenced-code-region toggle filtering
non-English prose, then joins, collapses blank-line runs and trims.  The
`franc` language detector is an external capability passed as a parameter.
Regex replacement is implemented on `List Char` following JavaScript
semantics (global, left-to-right, greedy); the scanning replacers use a
fuel argument bounded by the input length, which every step decreases. -/

/-- Case-insensitive literal match (the `i` flag): returns the rest of the
input after the matched phrase. -/
def matchCI : List Char → List Char → Option (List Char)
  | [], l => some l
  | _ :: _, [] => none
  | p :: ps, c :: cs => if p.toLower = c.toLower then matchCI ps cs else none

/-- First alternative of an alternation that matches (the alternatives used
below have pairwise distinct initials, so at most one can match). -/
def firstMatchCI : List (List Char) → List Char → Option (List Char)
  | [], _ => none
  | ph :: rest, l =>
    match matchCI ph l with
    | some r => some r
    | none => firstMatchCI rest l

/-- The rest of the input after the *last* `')'` occurring before the next
newline (greedy `.*\)`), if any. -/
def afterLastCloseParen : List Char → Option (List Char)
  | [] => none
  | c :: rest =>
    if c = '\n' then none
    else if c = ')' then
      match afterLastCloseParen rest with
      | some r => some r
      | none => some rest
    else afterLastCloseParen rest

/-- Rule 1 alternatives: `edit this page|view source|previous|next`. -/
def phrasesNav : List (List Char) :=
  ["edit this page".data, "view source".data, "previous".data, "next".data]

/-- A match of rule 1, `\[(edit this page|view source|previous|next)\]\(.*\)`,
anchored at the current position: returns the rest after the match. -/
def tryNavLink (l : List Char) : Option (List Char) :=
  match l with
  | '[' :: rest =>
    match firstMatchCI phrasesNav rest with
    | some r₁ =>
      match r₁ with
      | ']' :: '(' :: r₂ => afterLastCloseParen r₂
      | _ => none
    | none => none
  | _ => none

/-- Rule 1, global replacement with `""`. -/
def stripNavLinks : Nat → List Char → List Char
  | 0, l => l
  | _ + 1, [] => []
  | fuel + 1, c :: rest =>
    match tryNavLink (c :: rest) with
    | some rem => stripNavLinks fuel rem
    | none => c :: stripNavLinks fuel rest

/-- Rule 2 alternatives (boilerplate heading lines). -/
def phrasesBoiler : List (List Char) :=
  ["on this page".data, "in this article".data, "table of contents".data,
   "was this page helpful?".data, "still need help?".data, "contact support".data,
   "related articles".data, "feedback".data, "legal".data]

/-- The suffix of a whitespace run starting at its last `'\n'`, if any
(backtracking of greedy `\s*` so that the multiline `$` can match). -/
def lastNlSplit : List Char → Option (List Char)
  | [] => none
  | c :: rest =>
    match lastNlSplit rest with
    | some r => some r
    | none => if c = '\n' then some (c :: rest) else none

/-- After a rule-2 phrase: consume `\s*` so the match ends at end-of-input
or just before a newline; returns the rest of the input after the match. -/
def boilerTail (rest : List Char) : Option (List Char) :=
  match rest.dropWhile isJsWS with
  | [] => some []
  | _ :: _ =>
    match lastNlSplit (rest.takeWhile isJsWS) with
    | some suf => some (suf ++ rest.dropWhile isJsWS)
    | none => none

/-- Rule 2, `^(on this page|…|legal)\s*$` with flags `gim`: match only at a
line start, replace with `""`, resume scanning at the newline the `$`
matched before. -/
def stripBoiler : Nat → Bool → List Char → List Char
  | 0, _, l => l
  | _ + 1, _, [] => []
  | fuel + 1, atStart, c :: rest =>
    match
      (if atStart then
        match firstMatchCI phrasesBoiler (c :: rest) with
        | some r₁ => boilerTail r₁
        | none => none
      else none) with
    | some rem => stripBoiler fuel false rem
    | none => c :: stripBoiler fuel (c = '\n') rest

/-- The character class `[\*\-`_]` of rule 3. -/
def isDividerChar (c : Char) : Bool := c == '*' || c == '-' || c == '`' || c == '_'

/-- Rule 3, `^[\*\-`_]{3,}\s*$` (no `m` flag, so it can only match the whole
string), with the replacer keeping a lone thematic break `---`. -/
def ruleDividers (l : List Char) : List Char :=
  if 3 ≤ (l.takeWhile isDividerChar).length ∧ (l.dropWhile isDividerChar).all isJsWS = true then
    if jsTrimList l = "---".data then l else []
  else l

/-- Rule 4, `\[\]\(\)` replaced by `""` globally. -/
def removeEmptyLinks : Nat → List Char → List Char
  | 0, l => l
  | _ + 1, [] => []
  | fuel + 1, c :: rest =>
    match c :: rest with
    | '[' :: ']' :: '(' :: ')' :: r => removeEmptyLinks fuel r
    | _ => c :: removeEmptyLinks fuel rest

/-- Rule 5, `\n{3,}` replaced by `"\n\n"` globally: every maximal newline
run of length ≥ 3 is cut to two.  `k` counts the newlines of the current
run already kept. -/
def collapseNlAux : Nat → List Char → List Char
  | _, [] => []
  | k, c :: rest =>
    if c = '\n' then
      if 2 ≤ k then collapseNlAux k rest
      else '\n' :: collapseNlAux (k + 1) rest
    else c :: collapseNlAux 0 rest

def collapseNl (l : List Char) : List Char := collapseNlAux 0 l

/-- Split on `'\n'` (JS `split("\n")`). -/
def splitNl : List Char → List (List Char)
  | [] => [[]]
  | c :: rest =>
    if c = '\n' then [] :: splitNl rest
    else
      match splitNl rest with
      | [] => [[c]]
      | h :: t => (c :: h) :: t

/-- Join with `'\n'` (JS `join("\n")`). -/
def joinNl : List (List Char) → List Char
  | [] => []
  | [x] => x
  | x :: y :: rest => x ++ '\n' :: joinNl (y :: rest)

/-- Rule 6, `^[ \t]+|[ \t]+$` with flags `gm` replaced by `""`: strip
leading and trailing spaces/tabs of every line. -/
def ruleLineTrim (l : List Char) : List Char :=
  joinNl ((splitNl l).map fun line => dropTrail isSpaceTab (line.dropWhile isSpaceTab))

/-- All six `cleaningRules`, applied in array order. -/
def applyCleaningRules (l : List Char) : List Char :=
  let a := stripNavLinks (l.length + 1) l
  let b := stripBoiler (a.length + 1) true a
  let c := ruleDividers b
  let d := removeEmptyLinks (c.length + 1) c
  ruleLineTrim (collapseNl d)

/-- The pattern `\[([^\]]+)\]\([^\)]+\)` replaced by `"$1"` globally (keep link text). -/
def replaceLinksKeepText : Nat → List Char → List Char
  | 0, l => l
  | _ + 1, [] => []
  | fuel + 1, c :: rest =>
    if c = '[' then
      match rest.dropWhile (fun x => x != ']') with
      | ']' :: '(' :: r₂ =>
        match r₂.dropWhile (fun x => x != ')') with
        | ')' :: r₄ =>
          if 1 ≤ (rest.takeWhile (fun x => x != ']')).length
              ∧ 1 ≤ (r₂.takeWhile (fun x => x != ')')).length then
            rest.takeWhile (fun x => x != ']') ++ replaceLinksKeepText fuel r₄
          else c :: replaceLinksKeepText fuel rest
        | _ => c :: replaceLinksKeepText fuel rest
      | _ => c :: replaceLinksKeepText fuel rest
    else c :: replaceLinksKeepText fuel rest

/-- The class `` [`\*_~#|] `` of markdown syntax characters to delete. -/
def isMdSyntaxChar (c : Char) : Bool :=
  c == '`' || c == '*' || c == '_' || c == '~' || c == '#' || c == '|'

/-- The `textOnly` computation: link text kept, markdown syntax characters removed, then
trimmed. -/
def textOnlyOf (line : List Char) : List Char :=
  jsTrimList ((replaceLinksKeepText (line.length + 1) line).filter fun c => !isMdSyntaxChar c)

/-- Keep a non-code, non-blank line iff it is short (< 30 characters after
markup stripping) or `franc` reports English or undetermined. -/
def keepLine (franc : String → String) (line : List Char) : Bool :=
  if (textOnlyOf line).length < 30 then true
  else
    let lang := franc ⟨textOnlyOf line⟩
    lang == "eng" || lang == "und"

/-- The test `line.trim().startsWith("```")`: a fence marker line. -/
def isFenceLine (l : List Char) : Bool := "```".data.isPrefixOf (jsTrimList l)

/-- The fenced-code-aware line filter of `cleanMarkdown`: fence lines are
always kept and toggle the code-region state, lines inside a code region
and blank lines are always kept, other lines pass `keepLine`. -/
def filterLines (franc : String → String) : Bool → List (List Char) → List (List Char)
  | _, [] => []
  | inCodeBlock, l :: rest =>
    if isFenceLine l then l :: filterLines franc (!inCodeBlock) rest
    else if inCodeBlock then l :: filterLines franc inCodeBlock rest
    else if jsTrimList l = [] then l :: filterLines franc inCodeBlock rest
    else if keepLine franc l then l :: filterLines franc inCodeBlock rest
    else filterLines franc inCodeBlock rest

/-- The function `cleanMarkdown`: regex rules, line filter, rejoin, final blank-line
collapse, final trim. -/
def cleanMarkdown (franc : String → String) (rawMarkdown : String) : String :=
  let cleanedText := applyCleaningRules rawMarkdown.data
  let finalLines := filterLines franc false (splitNl cleanedText)
  ⟨jsTrimList (collapseNl (joinNl finalLines))⟩

/-! ### Whitespace normalization (C9) -/

/-- The text contains a run of three (or more) consecutive newlines. -/
def HasNNN (l : List Char) : Prop :=
  ∃ u v, l = u ++ '\n' :: '\n' :: '\n' :: v

theorem hasNNN_nil : ¬ HasNNN [] := by
  rintro ⟨u, v, h⟩
  cases u <;> simp_all

theorem hasNNN_cons {c : Char} {X : List Char} (h : HasNNN (c :: X)) :
    (c = '\n' ∧ ∃ v, X = '\n' :: '\n' :: v) ∨ HasNNN X := by
  obtain ⟨u, v, huv⟩ := h
  cases u with
  | nil =>
    simp only [List.nil_append, List.cons.injEq] at huv
    exact Or.inl ⟨huv.1, v, huv.2⟩
  | cons a u' =>
    simp only [List.cons_append, List.cons.injEq] at huv
    exact Or.inr ⟨u', v, huv.2⟩

theorem collapseAux_high_head (l : List Char) :
    ∀ k, 2 ≤ k → ∀ v : List Char, collapseNlAux k l ≠ '\n' :: v := by
  induction l with
  | nil => intro k _ v h; simp [collapseNlAux] at h
  | cons c rest ih =>
    intro k hk v h
    by_cases hc : c = '\n'
    · rw [show collapseNlAux k (c :: rest) = collapseNlAux k rest by
        simp [collapseNlAux, hc, hk]] at h
      exact ih k hk v h
    · rw [show collapseNlAux k (c :: rest) = c :: collapseNlAux 0 rest by
        simp [collapseNlAux, hc]] at h
      exact hc (List.cons.injEq .. ▸ h).1

theorem collapseAux_one_head (rest : List Char) (w v : List Char)
    (h : collapseNlAux 1 rest = '\n' :: w) : w ≠ '\n' :: v := by
  cases rest with
  | nil => simp [collapseNlAux] at h
  | cons c r' =>
    by_cases hc : c = '\n'
    · rw [show collapseNlAux 1 (c :: r') = '\n' :: collapseNlAux 2 r' by
        simp [collapseNlAux, hc]] at h
      have hw : w = collapseNlAux 2 r' := ((List.cons.injEq .. ▸ h).2).symm
      intro hcon
      exact collapseAux_high_head r' 2 le_rfl v (hw ▸ hcon)
    · rw [show collapseNlAux 1 (c :: r') = c :: collapseNlAux 0 r' by
        simp [collapseNlAux, hc]] at h
      exact absurd (List.cons.injEq .. ▸ h).1 hc

theorem collapseAux_no_nnn (l : List Char) : ∀ k, ¬ HasNNN (collapseNlAux k l) := by
  induction l with
  | nil => intro k; simpa [collapseNlAux] using hasNNN_nil
  | cons c rest ih =>
    intro k h
    by_cases hc : c = '\n'
    · by_cases hk : 2 ≤ k
      · rw [show collapseNlAux k (c :: rest) = collapseNlAux k rest by
          simp [collapseNlAux, hc, hk]] at h
        exact ih k h
      · rw [show collapseNlAux k (c :: rest) = '\n' :: collapseNlAux (k + 1) rest by
          simp [collapseNlAux, hc, hk]] at h
        rcases hasNNN_cons h with ⟨_, v, hv⟩ | h'
        · interval_cases k
          · exact collapseAux_one_head rest _ v hv rfl
          · exact collapseAux_high_head rest 2 le_rfl _ hv
        · exact ih (k + 1) h'
    · rw [show collapseNlAux k (c :: rest) = c :: collapseNlAux 0 rest by
        simp [collapseNlAux, hc]] at h
      rcases hasNNN_cons h with ⟨hcc, _⟩ | h'
      · exact hc hcc
      · exact ih 0 h'

theorem hasNNN_of_drop {l : List Char} {n : Nat} (h : HasNNN (l.drop n)) : HasNNN l := by
  obtain ⟨u, v, huv⟩ := h
  refine ⟨l.take n ++ u, v, ?_⟩
  conv_lhs => rw [← List.take_append_drop n l]
  rw [huv, List.append_assoc]

theorem hasNNN_of_take {l : List Char} {n : Nat} (h : HasNNN (l.take n)) : HasNNN l := by
  obtain ⟨u, v, huv⟩ := h
  refine ⟨u, v ++ l.drop n, ?_⟩
  conv_lhs => rw [← List.take_append_drop n l]
  rw [huv]
  simp [List.append_assoc]

theorem dropWhile_eq_drop' (p : Char → Bool) (l : List Char) :
    ∃ n, l.dropWhile p = l.drop n := by
  induction l with
  | nil => exact ⟨0, rfl⟩
  | cons c rest ih =>
    by_cases hc : p c
    · obtain ⟨n, hn⟩ := ih
      exact ⟨n + 1, by simpa [List.dropWhile, hc] using hn⟩
    · exact ⟨0, by simp [List.dropWhile, hc]⟩

theorem dropTrail_eq_take (p : Char → Bool) (l : List Char) :
    ∃ n, dropTrail p l = l.take n := by
  induction l with
  | nil => exact ⟨0, rfl⟩
  | cons c rest ih =>
    cases hdt : dropTrail p rest with
    | nil =>
      by_cases hc : p c
      · exact ⟨0, by simp [dropTrail, hdt, hc]⟩
      · exact ⟨1, by simp [dropTrail, hdt, hc]⟩
    | cons b r' =>
      obtain ⟨n, hn⟩ := ih
      refine ⟨n + 1, ?_⟩
      simp only [dropTrail, hdt, List.take_succ_cons]
      rw [← hdt, hn]

theorem dropWhile_head_all (p : Char → Bool) (l : List Char) :
    ((l.dropWhile p).head?.all fun c => !p c) = true := by
  induction l with
  | nil => rfl
  | cons c rest ih =>
    by_cases hc : p c
    · simpa [List.dropWhile, hc] using ih
    · simp [List.dropWhile, hc]

theorem dropTrail_head_or (p : Char → Bool) (l : List Char) :
    dropTrail p l = [] ∨ (dropTrail p l).head? = l.head? := by
  cases l with
  | nil => exact Or.inl rfl
  | cons c rest =>
    cases hdt : dropTrail p rest with
    | nil =>
      by_cases hc : p c
      · exact Or.inl (by simp [dropTrail, hdt, hc])
      · exact Or.inr (by simp [dropTrail, hdt, hc])
    | cons b r' => exact Or.inr (by simp [dropTrail, hdt])

theorem dropTrail_getLast_not (p : Char → Bool) (l : List Char) :
    ∀ c, (dropTrail p l).getLast? = some c → p c = false := by
  induction l with
  | nil => intro c h; simp [dropTrail] at h
  | cons a rest ih =>
    intro c h
    rcases hdt : dropTrail p rest with _ | ⟨b, r'⟩
    · by_cases hc : p a
      · simp [dropTrail, hdt, hc] at h
      · simp only [dropTrail, hdt] at h
        rw [if_neg hc] at h
        simp only [List.getLast?_singleton, Option.some.injEq] at h
        rw [← h]
        simpa using hc
    · simp only [dropTrail, hdt] at h
      rw [List.getLast?_cons_cons] at h
      exact ih c (hdt ▸ h)

/-- C9: for every input, the rule-based cleanup output has no leading and no
trailing whitespace character and never contains three consecutive newlines
(at most one blank line in a row), fenced code regions included — the final
`replace(/\n{3,}/g, "\n\n").trim()` runs on the whole joined text. -/
theorem cleanup_whitespace_normalized (franc : String → String) (raw : String) :
    ((cleanMarkdown franc raw).data.head?.all fun c => !isJsWS c) = true
    ∧ ((cleanMarkdown franc raw).data.getLast?.all fun c => !isJsWS c) = true
    ∧ ¬ HasNNN (cleanMarkdown franc raw).data := by
  have hdata : (cleanMarkdown franc raw).data
      = dropTrail isJsWS
          ((collapseNl (joinNl (filterLines franc false
              (splitNl (applyCleaningRules raw.data))))).dropWhile isJsWS) := rfl
  rw [hdata]
  refine ⟨?_, ?_, ?_⟩
  · rcases dropTrail_head_or isJsWS
        ((collapseNl (joinNl (filterLines franc false
          (splitNl (applyCleaningRules raw.data))))).dropWhile isJsWS) with h | h
    · rw [h]; rfl
    · rw [h]; exact dropWhile_head_all isJsWS _
  · cases hg : (dropTrail isJsWS
        ((collapseNl (joinNl (filterLines franc false
          (splitNl (applyCleaningRules raw.data))))).dropWhile isJsWS)).getLast? with
    | none => rfl
    | some c =>
      simp [dropTrail_getLast_not isJsWS _ c hg]
  · intro h
    obtain ⟨n, hn⟩ := dropTrail_eq_take isJsWS
      ((collapseNl (joinNl (filterLines franc false
        (splitNl (applyCleaningRules raw.data))))).dropWhile isJsWS)
    rw [hn] at h
    have h2 := hasNNN_of_take h
    obtain ⟨n', hn'⟩ := dropWhile_eq_drop' isJsWS
      (collapseNl (joinNl (filterLines franc false
        (splitNl (applyCleaningRules raw.data)))))
    rw [hn'] at h2
    exact collapseAux_no_nnn _ 0 (hasNNN_of_drop h2)

/-! ### Fenced code regions (C5) -/

/-- Inside a code region, the line filter keeps every line verbatim up to
and including the closing fence. -/
theorem filterLines_code_region (franc : String → String)
    (interior rest : List (List Char)) (f₂ : List Char)
    (hint : ∀ l ∈ interior, isFenceLine l = false) (hf₂ : isFenceLine f₂ = true) :
    filterLines franc true (interior ++ f₂ :: rest)
      = interior ++ f₂ :: filterLines franc false rest := by
  induction interior with
  | nil => simp [filterLines, hf₂]
  | cons l ls ih =>
    have hl : isFenceLine l = false := hint l (List.mem_cons_self l ls)
    have ih' := ih fun x hx => hint x (List.mem_cons_of_mem l hx)
    simp only [List.cons_append, filterLines, hl, Bool.false_eq_true, if_false, if_true,
      ite_true, ite_false]
    exact congrArg (List.cons l) ih'

/-- C5 counterexample: the regex pre-pass runs on the whole text *before*
the fence-aware loop, so the per-line `[ \t]` trimming rewrites a code
block's interior bytes: the indented interior line `"  indented"` of a
well-formed fenced block does not survive verbatim. -/
theorem cleanup_rewrites_code_block_bytes :
    splitNl ("```\n  indented\n```".data)
        = ["```".data, "  indented".data, "```".data]
    ∧ cleanMarkdown (fun _ => "und") "```\n  indented\n```" = "```\nindented\n```"
    ∧ "  indented".data ∉ splitNl ((cleanMarkdown (fun _ => "und") "```\n  indented\n```").data) := by
  refine ⟨by decide, by decide, by decide⟩

/-- C5 amended: the fenced-code-aware *line filter* does preserve a
well-formed block — both fence lines and every interior line — verbatim;
byte-for-byte preservation of the whole pipeline fails only because the
regex pre-pass (per-line space/tab stripping, blank-line collapsing) and
the final consolidation already rewrote the text the filter walks. -/
theorem fenced_filter_preserves_blocks (franc : String → String)
    (f₁ f₂ : List Char) (interior rest : List (List Char))
    (h₁ : isFenceLine f₁ = true) (h₂ : isFenceLine f₂ = true)
    (hint : ∀ l ∈ interior, isFenceLine l = false) :
    filterLines franc false (f₁ :: (interior ++ f₂ :: rest))
      = f₁ :: (interior ++ f₂ :: filterLines franc false rest) := by
  simp [filterLines, h₁, filterLines_code_region franc interior rest f₂ hint h₂]

/-- Witness for `fenced_filter_preserves_blocks` on a concrete block. -/
theorem fenced_filter_preserves_blocks_witness :
    filterLines (fun _ => "und") false
        ("```".data :: (["  x".data] ++ "```".data :: []))
      = "```".data :: (["  x".data] ++ "```".data :: filterLines (fun _ => "und") false []) :=
  fenced_filter_preserves_blocks (fun _ => "und") "```".data "```".data
    ["  x".data] [] (by decide) (by decide) (by decide)

/-! ## The model-based cleanup variant (`cleanupMarkdownWithGemini`)

The external model call (`model.generateContent` followed by
`response.text()`) is a parameter returning `Except`: `Except.error`
models the `try` block throwing. -/

/-- The fixed instruction text that precedes the raw markdown in the
prompt template literal. -/
def geminiPromptHead : String := "\n# ROLE\nYou are an expert technical content processor. Your task is to take a raw Markdown file, which has been crudely scraped and concatenated from multiple web pages, and clean it up for consistency, readability, and proper formatting.\n\n# GOAL\nProduce a single, clean, and coherent Markdown document from the provided raw text.\n\n# INSTRUCTIONS\n1.  **Standardize Headings:**\n    *   Identify the main topic of the entire document and ensure it is represented by a single `<h1>` heading at the very top.\n    *   Organize content from the different scraped pages into logical sections using `<h2>`, `<h3>`, etc.\n    *   Remove the repetitive `--- # Content from: http://...` separator lines. The standardized headings you create will provide the necessary structure.\n2.  **De-duplicate Content:**\n    *   Remove any obviously repeated boilerplate content that might have been scraped from the header, footer, or navigation bars of every page (e.g., \"Sign Up\", \"Login\", \"Terms of Service\").\n3.  **Fix Markdown Syntax:**\n    *   Ensure all code snippets are enclosed in proper, language-identified fenced code blocks (e.g., ```javascript). If the language is unknown, use ```text.\n    *   Correct any broken list formatting, mismatched formatting (like stray asterisks or backticks), and malformed / unnecessary links or images.\n4.  **Improve Readability:**\n    *   Merge short, fragmented paragraphs where it makes sense to do so.\n    *   Ensure there is consistent spacing between elements like headings, paragraphs, and code blocks.\n\n# STRICT CONSTRAINTS\n*   **DO NOT** alter or remove any code examples or technical instructions.\n*   **DO NOT** add any new information, opinions, or summaries. Your role is to clean and format, not to create content.\n*   **DO NOT** change the technical meaning of the text in any way.\n*   The output **MUST** be only the cleaned Markdown content. Do not include any preamble, introduction, or post-script like \"Here is the cleaned markdown:\" or \"I hope this helps!\".\n\n# RAW MARKDOWN INPUT:\n"

/-- The full prompt: instruction text, the raw markdown, the template's
trailing newline and indentation. -/
def geminiPrompt (rawMarkdown : String) : String :=
  geminiPromptHead ++ rawMarkdown ++ "\n    "

/-- The function `cleanupMarkdownWithGemini`: call the model on the prompt; on success
return its text, on any error fall back to the raw markdown unchanged. -/
def cleanupMarkdownWithGemini (generateContent : String → Except String String)
    (rawMarkdown : String) : String :=
  match generateContent (geminiPrompt rawMarkdown) with
  | Except.ok cleanedText => cleanedText
  | Except.error _ => rawMarkdown

/-- C6: the model-based cleanup stage is total — it produces the model's
text on success, and on *any* internal failure it returns the raw input
unchanged (in particular never an empty document and never a propagated
error).  The rule-based `cleanMarkdown` is a total function as well. -/
theorem cleanup_total_with_fallback (generateContent : String → Except String String)
    (raw : String) :
    (∀ t, generateContent (geminiPrompt raw) = Except.ok t →
        cleanupMarkdownWithGemini generateContent raw = t)
    ∧ (∀ e, generateContent (geminiPrompt raw) = Except.error e →
        cleanupMarkdownWithGemini generateContent raw = raw) := by
  constructor <;> intro x hx <;> simp [cleanupMarkdownWithGemini, hx]

/-- Witness for `cleanup_total_with_fallback`: a service that always fails
makes the cleanup return its input unchanged. -/
theorem cleanup_total_with_fallback_witness :
    (fun _ => (Except.error "boom" : Except String String)) (geminiPrompt "# Doc")
        = Except.error "boom"
    ∧ cleanupMarkdownWithGemini (fun _ => Except.error "boom") "# Doc" = "# Doc" :=
  ⟨rfl, (cleanup_total_with_fallback (fun _ => Except.error "boom") "# Doc").2 "boom" rfl⟩

/-! ## The bounded executor (`runConcurrentTasks`, `route.ts` 199–223)

JavaScript's run-to-completion makes each synchronous block atomic: the
initial `for` loop runs before any task can settle, and each settlement's
`.then(() => runNext())` (or a rejection) is one atomic step.  The state
records the shared `currentIndex`, the indices of started-but-unsettled
tasks, the settled ones split by outcome, and the abort flag.  `Promise.all`
fulfills when every chain has resolved (no task in flight and no rejection)
and rejects as soon as any chain rejects. -/

structure ExecState where
  nextIndex : Nat
  inFlight : List Nat
  fulfilledTasks : List Nat
  rejectedTasks : List Nat
  aborted : Bool
deriving DecidableEq

/-- One call of `runNext`: if the items are exhausted or cancellation is
observed, resolve without admitting; otherwise admit task `currentIndex`
and increment it. -/
def runNextStep (len : Nat) (s : ExecState) : ExecState :=
  if len ≤ s.nextIndex ∨ s.aborted = true then s
  else { s with nextIndex := s.nextIndex + 1, inFlight := s.inFlight ++ [s.nextIndex] }

/-- Iterations of the initial `for` loop:
`for (let i = 0; i < concurrencyLimit && i < items.length; i++)`.
The limit is an `Int` because the caller may pass zero or a negative
number. -/
def numInitCalls (concurrencyLimit : Int) (len : Nat) : Nat :=
  (min concurrencyLimit (len : Int)).toNat

/-- The executor state once the initial synchronous loop has run. -/
def initState (len : Nat) (concurrencyLimit : Int) (aborted₀ : Bool) : ExecState :=
  (runNextStep len)^[numInitCalls concurrencyLimit len]
    { nextIndex := 0, inFlight := [], fulfilledTasks := [], rejectedTasks := [], aborted := aborted₀ }

/-- Atomic scheduler steps after the initial loop: a task fulfills (its
chain synchronously calls `runNext`), a task rejects (its chain rejects,
no further admission on that chain), or the abort signal fires. -/
inductive ExecStep (len : Nat) : ExecState → ExecState → Prop
  | settleOk (s : ExecState) (i : Nat) (h : i ∈ s.inFlight) :
      ExecStep len s (runNextStep len
        { s with inFlight := s.inFlight.erase i, fulfilledTasks := s.fulfilledTasks ++ [i] })
  | settleErr (s : ExecState) (i : Nat) (h : i ∈ s.inFlight) :
      ExecStep len s
        { s with inFlight := s.inFlight.erase i, rejectedTasks := s.rejectedTasks ++ [i] }
  | abortSig (s : ExecState) :
      ExecStep len s { s with aborted := true }

/-- States reachable during one `runConcurrentTasks` call. -/
def ExecReachable (len : Nat) (concurrencyLimit : Int) (aborted₀ : Bool)
    (s : ExecState) : Prop :=
  Relation.ReflTransGen (ExecStep len) (initState len concurrencyLimit aborted₀) s

/-- The `Promise.all` of the chains has fulfilled. -/
def execFulfilled (s : ExecState) : Prop := s.inFlight = [] ∧ s.rejectedTasks = []

/-- The `Promise.all` of the chains has rejected (this happens at the first
chain rejection, regardless of tasks still in flight). -/
def execRejected (s : ExecState) : Prop := s.rejectedTasks ≠ []

/-! ### Executor invariants -/

theorem runNextStep_inFlight_le (len : Nat) (s : ExecState) :
    (runNextStep len s).inFlight.length ≤ s.inFlight.length + 1 := by
  unfold runNextStep
  split
  · exact Nat.le_succ _
  · simp

theorem runNextStep_nextIndex_of_aborted (len : Nat) (s : ExecState)
    (h : s.aborted = true) : runNextStep len s = s := by
  unfold runNextStep
  rw [if_pos (Or.inr h)]

theorem initState_inFlight_le (len : Nat) (C : Int) (ab₀ : Bool) :
    (initState len C ab₀).inFlight.length ≤ numInitCalls C len := by
  unfold initState
  generalize numInitCalls C len = k
  induction k with
  | zero => simp
  | succ n ih =>
    rw [Function.iterate_succ_apply']
    calc ((runNextStep len) ((runNextStep len)^[n] _)).inFlight.length
        ≤ ((runNextStep len)^[n]
            { nextIndex := 0, inFlight := [], fulfilledTasks := [],
              rejectedTasks := [], aborted := ab₀ }).inFlight.length + 1 :=
          runNextStep_inFlight_le len _
      _ ≤ n + 1 := Nat.succ_le_succ ih

/-- The completeness invariant: every admitted index is accounted for. -/
def ExecInv (C : Int) (s : ExecState) : Prop :=
  s.inFlight.length ≤ C.toNat ∧
    ∀ i, i < s.nextIndex →
      i ∈ s.inFlight ∨ i ∈ s.fulfilledTasks ∨ i ∈ s.rejectedTasks

theorem runNextStep_inv {C : Int} {len : Nat} {s : ExecState}
    (hlen : s.inFlight.length + 1 ≤ C.toNat ∨ len ≤ s.nextIndex ∨ s.aborted = true)
    (hinv : ∀ i, i < s.nextIndex →
      i ∈ s.inFlight ∨ i ∈ s.fulfilledTasks ∨ i ∈ s.rejectedTasks)
    (hle : s.inFlight.length ≤ C.toNat) :
    ExecInv C (runNextStep len s) := by
  unfold runNextStep
  split
  · exact ⟨hle, hinv⟩
  · next hcond =>
    rcases hlen with hlen | hlen
    · refine ⟨by simpa using hlen, ?_⟩
      intro i hi
      simp only [List.mem_append, List.mem_singleton]
      rcases Nat.lt_succ_iff_lt_or_eq.mp hi with hi | rfl
      · rcases hinv i hi with h | h | h
        · exact Or.inl (Or.inl h)
        · exact Or.inr (Or.inl h)
        · exact Or.inr (Or.inr h)
      · exact Or.inl (Or.inr rfl)
    · exact absurd hlen hcond

theorem runNextStep_account {len : Nat} {s : ExecState}
    (hinv : ∀ i, i < s.nextIndex →
      i ∈ s.inFlight ∨ i ∈ s.fulfilledTasks ∨ i ∈ s.rejectedTasks) :
    ∀ i, i < (runNextStep len s).nextIndex →
      i ∈ (runNextStep len s).inFlight ∨ i ∈ (runNextStep len s).fulfilledTasks
        ∨ i ∈ (runNextStep len s).rejectedTasks := by
  unfold runNextStep
  split
  · exact hinv
  · intro i hi
    dsimp only at hi ⊢
    rcases Nat.lt_succ_iff_lt_or_eq.mp hi with hi | rfl
    · rcases hinv i hi with h | h | h
      · exact Or.inl (List.mem_append.mpr (Or.inl h))
      · exact Or.inr (Or.inl h)
      · exact Or.inr (Or.inr h)
    · exact Or.inl (List.mem_append.mpr (Or.inr (List.mem_singleton.mpr rfl)))

theorem initState_inv (len : Nat) (C : Int) (ab₀ : Bool) :
    ExecInv C (initState len C ab₀) := by
  constructor
  · calc (initState len C ab₀).inFlight.length
        ≤ numInitCalls C len := initState_inFlight_le len C ab₀
      _ ≤ C.toNat := by
        unfold numInitCalls
        rcases le_total C (len : Int) with h | h
        · rw [min_eq_left h]
        · rw [min_eq_right h]
          exact Int.toNat_le_toNat h
  · unfold initState
    generalize numInitCalls C len = k
    induction k with
    | zero =>
      intro i hi
      simp only [Function.iterate_zero_apply] at hi
      exact absurd hi (Nat.not_lt_zero i)
    | succ n ih =>
      rw [Function.iterate_succ_apply']
      exact runNextStep_account ih

theorem execStep_inv {len : Nat} {C : Int} {s s' : ExecState}
    (hstep : ExecStep len s s') (hinv : ExecInv C s) : ExecInv C s' := by
  obtain ⟨hle, hall⟩ := hinv
  cases hstep with
  | settleOk i hi =>
    have hpos : 0 < s.inFlight.length := List.length_pos_of_mem hi
    apply runNextStep_inv
    · left
      dsimp only
      rw [List.length_erase_of_mem hi]
      omega
    · intro j hj
      dsimp only at hj ⊢
      rcases hall j hj with h | h | h
      · by_cases hji : j = i
        · subst hji
          exact Or.inr (Or.inl (List.mem_append.mpr (Or.inr (List.mem_singleton.mpr rfl))))
        · exact Or.inl ((List.mem_erase_of_ne hji).mpr h)
      · exact Or.inr (Or.inl (List.mem_append.mpr (Or.inl h)))
      · exact Or.inr (Or.inr h)
    · dsimp only
      rw [List.length_erase_of_mem hi]
      omega
  | settleErr i hi =>
    have hpos : 0 < s.inFlight.length := List.length_pos_of_mem hi
    refine ⟨?_, ?_⟩
    · dsimp only
      rw [List.length_erase_of_mem hi]
      omega
    · intro j hj
      dsimp only at hj ⊢
      rcases hall j hj with h | h | h
      · by_cases hji : j = i
        · subst hji
          exact Or.inr (Or.inr (List.mem_append.mpr (Or.inr (List.mem_singleton.mpr rfl))))
        · exact Or.inl ((List.mem_erase_of_ne hji).mpr h)
      · exact Or.inr (Or.inl h)
      · exact Or.inr (Or.inr (List.mem_append.mpr (Or.inl h)))
  | abortSig => exact ⟨hle, hall⟩

theorem execReachable_inv {len : Nat} {C : Int} {ab₀ : Bool} {s : ExecState}
    (h : ExecReachable len C ab₀ s) : ExecInv C s := by
  induction h with
  | refl => exact initState_inv len C ab₀
  | tail _ hstep ih => exact execStep_inv hstep ih

/-- C4 counterexample: with two items and limit 2, if task 0's promise
rejects (the cooperative `AbortError` rethrow is the one rejection path in
the callers), `Promise.all` rejects — the executor's returned promise
settles — while admitted task 1 is still in flight and unsettled.  So the
executor does *not*, in general, settle only after every admitted task has
settled. -/
theorem executor_rejection_settles_early :
    ExecReachable 2 2 false
      { nextIndex := 2, inFlight := [1], fulfilledTasks := [], rejectedTasks := [0], aborted := false }
    ∧ execRejected
      { nextIndex := 2, inFlight := [1], fulfilledTasks := [], rejectedTasks := [0], aborted := false }
    ∧ (1 : Nat) ∈ ({ nextIndex := 2, inFlight := [1], fulfilledTasks := [], rejectedTasks := [0], aborted := false } : ExecState).inFlight
    ∧ (1 : Nat) ∉ ({ nextIndex := 2, inFlight := [1], fulfilledTasks := [], rejectedTasks := [0], aborted := false } : ExecState).fulfilledTasks
    ∧ (1 : Nat) ∉ ({ nextIndex := 2, inFlight := [1], fulfilledTasks := [], rejectedTasks := [0], aborted := false } : ExecState).rejectedTasks := by
  refine ⟨?_, by simp [execRejected], by decide, by decide, by decide⟩
  have hinit : initState 2 2 false
      = { nextIndex := 2, inFlight := [0, 1], fulfilledTasks := [], rejectedTasks := [], aborted := false } := by
    decide
  have hstep := @ExecStep.settleErr 2
    { nextIndex := 2, inFlight := [0, 1], fulfilledTasks := [], rejectedTasks := [], aborted := false }
    0 (by decide)
  unfold ExecReachable
  rw [hinit]
  exact Relation.ReflTransGen.single hstep

/-- C4 amended: in every reachable executor state, at most
`concurrencyLimit` tasks are in flight; once the abort signal has been
observed no step admits a new task; and when the executor's promise
*fulfills* (no admitted task rejected), every admitted task has settled.
The original claim's third guarantee holds only in the absence of task
rejections — a rejecting task settles the promise early
(`executor_rejection_settles_early`). -/
theorem executor_bounded_and_cooperative (len : Nat) (concurrencyLimit : Int)
    (ab₀ : Bool) (s : ExecState)
    (h : ExecReachable len concurrencyLimit ab₀ s) :
    s.inFlight.length ≤ concurrencyLimit.toNat
    ∧ (s.aborted = true → ∀ s', ExecStep len s s' →
        s'.nextIndex = s.nextIndex ∧ s'.aborted = true)
    ∧ (execFulfilled s → ∀ i, i < s.nextIndex → i ∈ s.fulfilledTasks) := by
  obtain ⟨hle, hall⟩ := execReachable_inv h
  refine ⟨hle, ?_, ?_⟩
  · intro hab s' hstep
    cases hstep with
    | settleOk i hi =>
      have hmid := runNextStep_nextIndex_of_aborted len
        { s with inFlight := s.inFlight.erase i, fulfilledTasks := s.fulfilledTasks ++ [i] } hab
      rw [hmid]
      exact ⟨rfl, hab⟩
    | settleErr i hi => exact ⟨rfl, hab⟩
    | abortSig => exact ⟨rfl, rfl⟩
  · rintro ⟨hif, hrej⟩ i hi
    rcases hall i hi with hm | hm | hm
    · rw [hif] at hm
      exact absurd hm (List.not_mem_nil i)
    · exact hm
    · rw [hrej] at hm
      exact absurd hm (List.not_mem_nil i)

/-- Witness for `executor_bounded_and_cooperative` at the initial state of
a one-item, limit-one call. -/
theorem executor_bounded_and_cooperative_witness :
    ExecReachable 1 1 false (initState 1 1 false)
    ∧ (initState 1 1 false).inFlight.length ≤ (1 : Int).toNat :=
  ⟨Relation.ReflTransGen.refl,
   (executor_bounded_and_cooperative 1 1 false _ Relation.ReflTransGen.refl).1⟩

/-- C10: with a zero or negative concurrency limit and a non-empty item
list, the initial loop admits nothing, so the executor fulfills immediately
(`Promise.all([])`), never invokes the task function on any item, and no
reachable state ever starts or settles a task. -/
theorem executor_skips_items_on_nonpositive_limit (len : Nat) (concurrencyLimit : Int)
    (hC : concurrencyLimit ≤ 0) (hlen : 0 < len) (ab₀ : Bool) (s : ExecState)
    (h : ExecReachable len concurrencyLimit ab₀ s) :
    s.nextIndex = 0 ∧ s.inFlight = [] ∧ s.fulfilledTasks = [] ∧ s.rejectedTasks = []
    ∧ execFulfilled (initState len concurrencyLimit ab₀) := by
  have hinit : initState len concurrencyLimit ab₀
      = { nextIndex := 0, inFlight := [], fulfilledTasks := [], rejectedTasks := [], aborted := ab₀ } := by
    unfold initState numInitCalls
    have h0 : (min concurrencyLimit (len : Int)).toNat = 0 := by
      rw [Int.toNat_eq_zero]
      exact le_trans (min_le_left _ _) hC
    rw [h0]
    rfl
  have main : s.nextIndex = 0 ∧ s.inFlight = [] ∧ s.fulfilledTasks = []
      ∧ s.rejectedTasks = [] := by
    unfold ExecReachable at h
    induction h with
    | refl => rw [hinit]; exact ⟨rfl, rfl, rfl, rfl⟩
    | tail hr hstep ih =>
      obtain ⟨h1, h2, h3, h4⟩ := ih
      cases hstep with
      | settleOk i hi =>
        rw [h2] at hi
        exact absurd hi (List.not_mem_nil i)
      | settleErr i hi =>
        rw [h2] at hi
        exact absurd hi (List.not_mem_nil i)
      | abortSig => exact ⟨h1, h2, h3, h4⟩
  refine ⟨main.1, main.2.1, main.2.2.1, main.2.2.2, ?_⟩
  rw [hinit]
  exact ⟨rfl, rfl⟩

/-- Witness for `executor_skips_items_on_nonpositive_limit` with limit −2
and one item. -/
theorem executor_skips_items_witness :
    ((-2 : Int) ≤ 0) ∧ (0 < 1) ∧ (initState 1 (-2) false).nextIndex = 0 :=
  ⟨by decide, by decide,
   (executor_skips_items_on_nonpositive_limit 1 (-2) (by decide) (by decide) false _
      Relation.ReflTransGen.refl).1⟩

/-! ## The processing phase and the event stream (`route.ts` 376–456)

A `processTask` run is one `try`/`catch`/`finally`: the `try` block's
outcome is abstracted by `FetchOutcome`; the `finally` block increments the
shared counter and emits the `processing` event atomically (it is a
synchronous block).  Task completions are serialized by the event loop, so
the processing phase is the fold of `processTask` over the tasks in
completion order; cancellation after `k` completions discards the rest and
rethrows `AbortError`, which skips the cleaning phase, the cache write and
the `complete` event.  The client (`app/page.tsx`) maps the `complete`
event to the terminal phase `"complete"` and the `AbortError` rejection to
the terminal phase `"stopped"`. -/

inductive Event where
  | phase (name message : String) (total : Option Nat)
  | discovery (discovered : Nat) (message : String)
  | processing (processed total : Nat) (message : String)
  | content (chunk : String)
  | complete (content : String)
deriving DecidableEq

/-- The outcome of one `processTask` try block. -/
inductive FetchOutcome where
  | notHtml
  | fetchError
  | noArticle
  | article (title : String) (markdown : String)
deriving DecidableEq

/-- The chunk pushed to `allPageMarkdown`, when the page yields content:
`\n\n---\n\n## Source: <url>\n\n<titleHeader><markdown>`. -/
def chunkOf (url : String) : FetchOutcome → Option String
  | FetchOutcome.article title markdown =>
      some ("\n\n---\n\n## Source: " ++ url ++ "\n\n"
        ++ (if title = "" then "" else "# " ++ title ++ "\n\n") ++ markdown)
  | _ => none

structure ProcState where
  processedCount : Nat
  chunks : List String
  events : List Event
deriving DecidableEq

/-- Append the chunk, if any (the end of the `try` block). -/
def pushChunk (st : ProcState) : Option String → ProcState
  | some c => { st with chunks := st.chunks ++ [c] }
  | none => st

/-- One `processTask` completion: push the chunk if the page yielded one,
then — in the `finally` block, on success, failure and `AbortError`
alike — increment `processedCount` and emit the `processing` event
carrying the new count and the total. -/
def processTask (total : Nat) (st : ProcState) (t : String × FetchOutcome) : ProcState :=
  let st₁ := pushChunk st (chunkOf t.1 t.2)
  { st₁ with
    processedCount := st₁.processedCount + 1,
    events := st₁.events ++
      [Event.processing (st₁.processedCount + 1) total ("Processed: " ++ t.1)] }

/-- Message of the phase-2 announcement. -/
def processingMsg (total : Nat) : String :=
  "Phase 2: Processing " ++ toString total ++ " pages..."

/-- Message of the phase-3 announcement. -/
def cleaningMsg : String := "Phase 3: Applying advanced content cleaning rules..."

/-- Outcome of the stream body from the start of the processing phase on. -/
inductive CrawlResult where
  | completed (events : List Event) (cacheWrites : List String)
  | stopped (events : List Event) (cacheWrites : List String)
deriving DecidableEq

def crawlEvents : CrawlResult → List Event
  | CrawlResult.completed evs _ => evs
  | CrawlResult.stopped evs _ => evs

def crawlWrites : CrawlResult → List String
  | CrawlResult.completed _ ws => ws
  | CrawlResult.stopped _ ws => ws

/-- The stream body from the processing phase on.  `tasks` pairs each
discovered URL with its outcome, in completion order; `abortAfter = some k`
means the cancellation signal was observed after `k` task completions (the
remaining tasks are never admitted, the post-loop `if (req.signal.aborted)
throw` rethrows `AbortError`, so no cleaning phase, no cache write and no
`complete` event happen); `abortAfter = none` is an uncancelled run:
cleaning phase, conditional cache write of the trimmed final content, and
the `complete` event carrying the cleaned document. -/
def crawlAfterDiscovery (tasks : List (String × FetchOutcome)) (abortAfter : Option Nat)
    (franc : String → String) : CrawlResult :=
  let total := tasks.length
  let init : ProcState :=
    { processedCount := 0, chunks := [],
      events := [Event.phase "processing" (processingMsg total) (some total)] }
  match abortAfter with
  | some k =>
    let st := (tasks.take k).foldl (processTask total) init
    CrawlResult.stopped st.events []
  | none =>
    let st := tasks.foldl (processTask total) init
    let finalContent := cleanMarkdown franc (String.join st.chunks)
    let writes := if jsTrim finalContent = "" then [] else [jsTrim finalContent]
    CrawlResult.completed
      ((st.events ++ [Event.phase "cleaning" cleaningMsg none])
        ++ [Event.complete finalContent]) writes

/-- The terminal phase the client reaches for a given stream outcome
(`app/page.tsx`: the `complete` event sets phase `"complete"`, the
`AbortError` rejection of a stopped run sets phase `"stopped"`). -/
def clientPhase : CrawlResult → String
  | CrawlResult.completed _ _ => "complete"
  | CrawlResult.stopped _ _ => "stopped"

/-- The counter values carried by the `processing` events, in order. -/
def processedValues (evs : List Event) : List Nat :=
  evs.filterMap fun e =>
    match e with
    | Event.processing p _ _ => some p
    | _ => none

/-- Whether a `complete` event occurs. -/
def hasCompleteEvent (evs : List Event) : Bool :=
  evs.any fun e =>
    match e with
    | Event.complete _ => true
    | _ => false

/-- The `processing` events a fold starting at count `start` appends. -/
def expectedProcEvents (total start : Nat) : List (String × FetchOutcome) → List Event
  | [] => []
  | t :: ts =>
      Event.processing (start + 1) total ("Processed: " ++ t.1)
        :: expectedProcEvents total (start + 1) ts

theorem pushChunk_processedCount (st : ProcState) (c : Option String) :
    (pushChunk st c).processedCount = st.processedCount := by
  cases c <;> rfl

theorem pushChunk_events (st : ProcState) (c : Option String) :
    (pushChunk st c).events = st.events := by
  cases c <;> rfl

/-- The processing fold increments the counter once per task and appends
exactly the expected `processing` events. -/
theorem processTask_foldl (total : Nat) (tasks : List (String × FetchOutcome))
    (st : ProcState) :
    (tasks.foldl (processTask total) st).processedCount
        = st.processedCount + tasks.length
    ∧ (tasks.foldl (processTask total) st).events
        = st.events ++ expectedProcEvents total st.processedCount tasks := by
  induction tasks generalizing st with
  | nil => exact ⟨rfl, by simp [expectedProcEvents]⟩
  | cons t ts ih =>
    simp only [List.foldl_cons]
    obtain ⟨ih1, ih2⟩ := ih (processTask total st t)
    constructor
    · rw [ih1]
      simp only [processTask, pushChunk_processedCount]
      simp [List.length_cons]
      omega
    · rw [ih2]
      simp only [processTask, pushChunk_processedCount, pushChunk_events,
        expectedProcEvents]
      simp [List.append_assoc]

theorem processedValues_expected (total start : Nat)
    (ts : List (String × FetchOutcome)) :
    processedValues (expectedProcEvents total start ts)
      = List.range' (start + 1) ts.length := by
  induction ts generalizing start with
  | nil => rfl
  | cons t ts ih =>
    simp only [expectedProcEvents, processedValues, List.filterMap_cons,
      List.length_cons, List.range'_succ]
    exact congrArg (List.cons (start + 1)) (ih (start + 1))

theorem processedValues_append (a b : List Event) :
    processedValues (a ++ b) = processedValues a ++ processedValues b :=
  List.filterMap_append a b _

theorem expected_no_complete (total start : Nat) (ts : List (String × FetchOutcome)) :
    hasCompleteEvent (expectedProcEvents total start ts) = false := by
  induction ts generalizing start with
  | nil => rfl
  | cons t ts ih =>
    simp only [expectedProcEvents, hasCompleteEvent, List.any_cons] at *
    simpa using ih (start + 1)

/-- C1: in an uncancelled run, each discovered URL's task increments the
counter exactly once and emits one `processing` event carrying the counter
and the total, whatever its outcome: the emitted counter values are exactly
`1, 2, …, total`, each exactly once and in order, and every one of them is
emitted before the `cleaning` phase event (no `processing` event follows
it). -/
theorem processing_counter_once_per_url (tasks : List (String × FetchOutcome))
    (franc : String → String) :
    processedValues (crawlEvents (crawlAfterDiscovery tasks none franc))
        = List.range' 1 tasks.length
    ∧ ∃ pre post,
        crawlEvents (crawlAfterDiscovery tasks none franc)
          = pre ++ Event.phase "cleaning" cleaningMsg none :: post
        ∧ processedValues pre = List.range' 1 tasks.length
        ∧ processedValues post = [] := by
  have he' : (tasks.foldl (processTask tasks.length)
      { processedCount := 0, chunks := [],
        events := [Event.phase "processing" (processingMsg tasks.length) (some tasks.length)] }).events
      = [Event.phase "processing" (processingMsg tasks.length) (some tasks.length)]
        ++ expectedProcEvents tasks.length 0 tasks :=
    (processTask_foldl tasks.length tasks _).2
  have hev : crawlEvents (crawlAfterDiscovery tasks none franc)
      = ((tasks.foldl (processTask tasks.length)
            { processedCount := 0, chunks := [],
              events := [Event.phase "processing" (processingMsg tasks.length) (some tasks.length)] }).events
          ++ [Event.phase "cleaning" cleaningMsg none])
        ++ [Event.complete (cleanMarkdown franc (String.join
            (tasks.foldl (processTask tasks.length)
              { processedCount := 0, chunks := [],
                events := [Event.phase "processing" (processingMsg tasks.length) (some tasks.length)] }).chunks))] := rfl
  constructor
  · rw [hev, he', processedValues_append, processedValues_append, processedValues_append,
      processedValues_expected]
    simp [processedValues]
  · refine ⟨[Event.phase "processing" (processingMsg tasks.length) (some tasks.length)]
        ++ expectedProcEvents tasks.length 0 tasks,
      [Event.complete (cleanMarkdown franc (String.join
        (tasks.foldl (processTask tasks.length)
          { processedCount := 0, chunks := [],
            events := [Event.phase "processing" (processingMsg tasks.length) (some tasks.length)] }).chunks))],
      ?_, ?_, rfl⟩
    · rw [hev, he']
      simp [List.append_assoc]
    · rw [processedValues_append, processedValues_expected]
      simp [processedValues]

/-- C8: when cancellation is observed during the processing phase, the run
ends in the distinct terminal outcome modelled by `CrawlResult.stopped`
(the `AbortError` rethrow), the client's terminal phase is `"stopped"`, no
`complete` event is emitted on the stream, no cache write occurs, and only
the first `k` completions were counted. -/
theorem cancellation_stops_run (tasks : List (String × FetchOutcome)) (k : Nat)
    (franc : String → String) (h1 : 0 < k) (h2 : k < tasks.length) :
    clientPhase (crawlAfterDiscovery tasks (some k) franc) = "stopped"
    ∧ hasCompleteEvent (crawlEvents (crawlAfterDiscovery tasks (some k) franc)) = false
    ∧ crawlWrites (crawlAfterDiscovery tasks (some k) franc) = []
    ∧ processedValues (crawlEvents (crawlAfterDiscovery tasks (some k) franc))
        = List.range' 1 k := by
  have he' : crawlEvents (crawlAfterDiscovery tasks (some k) franc)
      = [Event.phase "processing" (processingMsg tasks.length) (some tasks.length)]
        ++ expectedProcEvents tasks.length 0 (tasks.take k) :=
    (processTask_foldl tasks.length (tasks.take k) _).2
  refine ⟨rfl, ?_, rfl, ?_⟩
  · rw [he']
    simp only [hasCompleteEvent, List.any_append] at *
    have h := expected_no_complete tasks.length 0 (tasks.take k)
    simp only [hasCompleteEvent] at h
    simp [h]
  · rw [he', processedValues_append, processedValues_expected]
    have hlen : (tasks.take k).length = k := by
      rw [List.length_take]
      exact Nat.min_eq_left (Nat.le_of_lt h2)
    rw [hlen]
    simp [processedValues]

/-- Witness for `cancellation_stops_run`: cancellation after 1 of 2 tasks.
-/
theorem cancellation_stops_run_witness :
    (0 < 1) ∧ (1 < 2)
    ∧ clientPhase (crawlAfterDiscovery
        [("u1", FetchOutcome.notHtml), ("u2", FetchOutcome.notHtml)] (some 1)
        (fun _ => "und")) = "stopped"
    ∧ crawlWrites (crawlAfterDiscovery
        [("u1", FetchOutcome.notHtml), ("u2", FetchOutcome.notHtml)] (some 1)
        (fun _ => "und")) = [] :=
  ⟨by decide, by decide,
   (cancellation_stops_run [("u1", FetchOutcome.notHtml), ("u2", FetchOutcome.notHtml)]
      1 (fun _ => "und") (by decide) (by decide)).1,
   (cancellation_stops_run [("u1", FetchOutcome.notHtml), ("u2", FetchOutcome.notHtml)]
      1 (fun _ => "und") (by decide) (by decide)).2.2.1⟩
